import Mathlib

/-!
# Verification of the SmartMix recommendation engine

Shallow embedding of `src/recommendation_engine.py` and proofs about it.

Conventions of the embedding:
* Python strings are modelled as `List Char`; character classes (`\w`, `\s`)
  and `str.lower`, `str.strip`, `str.split` are modelled over their ASCII
  behaviour (`wordChar`, an explicit whitespace set `isSp`, `pyLower`).
* Python floats are modelled as exact numbers: the fuzzy-match scores of
  `find_best_crossfade_from_match` are rationals (they are quotients of small
  integers), and the numeric pipeline of `main` works over the reals.
* NumPy arrays are modelled as functions out of `Fin n`; stringly-indexed
  `pandas` rows are modelled as typed records / lists.
-/

/-- The Python `\s` class (ASCII part): space, tab, newline, carriage return,
vertical tab and form feed.  Used by `re.sub(r'\s+', ' ', ...)`, `str.strip()`
and `str.split()` in `normalize_song_name` and the matcher. -/
def isSp (c : Char) : Bool :=
  decide (c = ' ' ∨ c = '\t' ∨ c = '\n' ∨ c = '\r' ∨ c = '\x0b' ∨ c = '\x0c')

/-- The Python `\w` class (ASCII part): alphanumeric characters and the
underscore (`A`-`Z` is 65-90, `a`-`z` is 97-122, `0`-`9` is 48-57).
`re.sub(r'[^\w\s]', '', name)` keeps exactly `\w` and `\s`. -/
def wordChar (c : Char) : Bool :=
  decide ((65 ≤ c.toNat ∧ c.toNat ≤ 90) ∨ (97 ≤ c.toNat ∧ c.toNat ≤ 122) ∨
    (48 ≤ c.toNat ∧ c.toNat ≤ 57) ∨ c = '_')

/-- `str.lower()` on one character (ASCII behaviour): shift `A`-`Z` (65-90)
up by 32, leave everything else unchanged. -/
def pyLower (c : Char) : Char :=
  if 65 ≤ c.toNat ∧ c.toNat ≤ 90 then Char.ofNat (c.toNat + 32) else c

/-- Scan for the first closing bracket reachable by the non-greedy `.*?` of the
regex `[\(\[].*?[\)\]]`: the character class `[\)\]]` accepts **either** `)` or
`]`, and `.` does not match a newline, so the scan fails if a newline comes
before every closing bracket.  Returns the suffix after that closer. -/
def findCloser : List Char → Option (List Char)
  | [] => none
  | c :: r =>
    if c = ')' ∨ c = ']' then some r
    else if c = '\n' then none
    else findCloser r

/-- Fuel-indexed scanner for `re.sub(r'[\(\[].*?[\)\]]', '', name)`:
at each `(` or `[` the leftmost non-greedy match is removed (everything up to
the first `)` or `]`, of either kind); if no match starts there (newline before
any closer, or no closer), the opener is kept and scanning resumes right after
it, exactly like the regex engine.  The fuel is only a termination device;
`stripBrackets` supplies `l.length`, which is always sufficient. -/
def stripBracketsF : Nat → List Char → List Char
  | 0, l => l
  | _ + 1, [] => []
  | f + 1, c :: rest =>
    if c = '(' ∨ c = '[' then
      match findCloser rest with
      | some rest2 => stripBracketsF f rest2
      | none => c :: stripBracketsF f rest
    else c :: stripBracketsF f rest

/-- Line 28 of the source: `re.sub(r'[\(\[].*?[\)\]]', '', name)`. -/
def stripBrackets (l : List Char) : List Char :=
  stripBracketsF l.length l

/-- Line 29 of the source: `re.sub(r'[^\w\s]', '', name)`. -/
def keepWordSp (l : List Char) : List Char :=
  l.filter (fun c => wordChar c || isSp c)

/-- `str.lower()` (ASCII behaviour). -/
def lowerStr (l : List Char) : List Char :=
  l.map pyLower

/-- `str.strip()`: drop leading and trailing whitespace. -/
def pyStrip (l : List Char) : List Char :=
  (((l.dropWhile isSp).reverse).dropWhile isSp).reverse

/-- State-passing scanner for `re.sub(r'\s+', ' ', name)`: the flag records
whether the previous character was whitespace, so each maximal whitespace run
is emitted as a single space. -/
def collapseAux : Bool → List Char → List Char
  | _, [] => []
  | prevSp, c :: rest =>
    if isSp c then
      if prevSp then collapseAux true rest
      else ' ' :: collapseAux true rest
    else c :: collapseAux false rest

/-- Line 31 of the source: `re.sub(r'\s+', ' ', name)`. -/
def collapseWS (l : List Char) : List Char :=
  collapseAux false l

/-- The string pipeline of `normalize_song_name` (lines 28-32): brackets,
then `[^\w\s]`, then `.lower()`, then `.strip()`, then `\s+ -> ' '`. -/
def normalizeStr (l : List Char) : List Char :=
  collapseWS (pyStrip (lowerStr (keepWordSp (stripBrackets l))))

/-- A dynamically-typed Python value as far as `normalize_song_name` cares:
either a string or anything else (line 25: `if not isinstance(name, str)`). -/
inductive PyVal where
  | str (s : List Char)
  | other
deriving DecidableEq

/-- Lines 23-32 of the source: `normalize_song_name`. -/
def normalize_song_name : PyVal → List Char
  | .str s => normalizeStr s
  | .other => []

/-! ## Definitions taken from the specification's words (for claim C4)

The two definitions below are *not* translations of the source; they spell
out the normalization steps exactly as the specification claims them, to be
compared with `normalize_song_name`. -/

/-- "alphanumeric" as the spec claims the kept class to be (no underscore). -/
def alnumChar (c : Char) : Bool :=
  decide ((65 ≤ c.toNat ∧ c.toNat ≤ 90) ∨ (97 ≤ c.toNat ∧ c.toNat ≤ 122) ∨
    (48 ≤ c.toNat ∧ c.toNat ≤ 57))

/-- Scan for the first closing bracket of one fixed kind; any characters,
including newlines, may come before it.  This is the reading of the claim's
"up to the first closing bracket of the matching kind". -/
def findCloserKind (close : Char) : List Char → Option (List Char)
  | [] => none
  | c :: r => if c = close then some r else findCloserKind close r

/-- Bracket removal as the original claim states it: a span starts at `(` or
`[` and runs to the first closing bracket of the *matching* kind. -/
def claimStripBracketsF : Nat → List Char → List Char
  | 0, l => l
  | _ + 1, [] => []
  | f + 1, c :: rest =>
    if c = '(' then
      match findCloserKind ')' rest with
      | some rest2 => claimStripBracketsF f rest2
      | none => c :: claimStripBracketsF f rest
    else if c = '[' then
      match findCloserKind ']' rest with
      | some rest2 => claimStripBracketsF f rest2
      | none => c :: claimStripBracketsF f rest
    else c :: claimStripBracketsF f rest

/-- Bracket removal as the original claim states it. -/
def claimStripBrackets (l : List Char) : List Char :=
  claimStripBracketsF l.length l

/-- `normalize` as the original claim C4 words it: matching-kind bracket
removal, keep only alphanumeric-or-whitespace, lowercase, collapse whitespace
runs, trim. -/
def claimNormalize (l : List Char) : List Char :=
  pyStrip (collapseWS (lowerStr ((claimStripBrackets l).filter
    (fun c => alnumChar c || isSp c))))

/-- `normalize` as claim C4 reads after amendment: bracket spans close at the
first `)` or `]` of either kind and never span a newline, the kept class is
`\w` (alphanumeric or underscore) or whitespace, then lowercase, collapse
whitespace runs, trim.  Only the final two steps are stated in the claim's
order (collapse, then trim); the source trims before collapsing, and the
amended theorem proves the two orders agree. -/
def amendedNormalizeStr (l : List Char) : List Char :=
  pyStrip (collapseWS (lowerStr (keepWordSp (stripBrackets l))))

/-- The amended claim C4 on arbitrary Python values. -/
def amendedNormalize : PyVal → List Char
  | .str s => amendedNormalizeStr s
  | .other => []

/-- The whitespace state `re.sub(r'\s+', ' ', ...)` is in after reading `xs`,
having started in state `b`: whether the last character read was whitespace. -/
def stAfter (b : Bool) (xs : List Char) : Bool :=
  xs.foldl (fun _ c => isSp c) b

/-- Drop trailing whitespace (the right half of `str.strip()`). -/
def stripEnd (l : List Char) : List Char :=
  (l.reverse.dropWhile isSp).reverse

/-- Checks that a string is a fixed point of whitespace collapsing when
entered in state `b`: every whitespace character is a literal space and no
space follows another (nor an initial state that already read a space). -/
def canonAux : Bool → List Char → Bool
  | _, [] => true
  | b, c :: r =>
    if c = ' ' then !b && canonAux true r
    else if isSp c then false
    else canonAux false r

/-! ## Name resolution (`find_best_crossfade_from_match`, lines 39-74) -/

/-- Python substring test `a in b` on strings: `a` occurs contiguously in `b`.
The empty string is a substring of everything, as in Python. -/
def isSubOf (a : List Char) : List Char → Bool
  | [] => a.isEmpty
  | b :: r => a.isPrefixOf (b :: r) || isSubOf a r

/-- `str.split()` with no separator: split on whitespace runs, dropping empty
chunks.  The accumulator holds the current word, reversed. -/
def wordsAux : List Char → List Char → List (List Char)
  | acc, [] => if acc.isEmpty then [] else [acc.reverse]
  | acc, c :: r =>
    if isSp c then
      if acc.isEmpty then wordsAux [] r else acc.reverse :: wordsAux [] r
    else wordsAux (c :: acc) r

/-- `str.split()` on a (normalized) name. -/
def wordsOf (l : List Char) : List (List Char) :=
  wordsAux [] l

/-- Lines 55-63 of the source: the per-candidate match score.  `1.0` when one
normalized name contains the other, otherwise the number of distinct words of
the normalized target that also occur in the candidate, divided by
`max(len(target_words), 1)`.  All scores are exact rationals; the quotient is
written with `mkRat` (provably equal to `/`, see the C1 theorem) so that
concrete runs reduce inside the kernel. -/
def matchScore (query cand : List Char) : ℚ :=
  let nq := normalizeStr query
  let nc := normalizeStr cand
  if isSubOf nq nc || isSubOf nc nq then 1
  else
    let targetWords := (wordsOf nq).dedup
    let csvWords := wordsOf nc
    mkRat ((targetWords.filter (fun w => w ∈ csvWords)).length : Int)
      (max targetWords.length 1)

/-- Lines 51-67 of the source: the scanning loop.  State: current index,
`best_match_idx` (initially `-1`) and `best_match_score` (initially `0`);
a candidate only takes over on a strictly larger score. -/
def loopAux : List ℚ → Nat → Int → ℚ → Int × ℚ
  | [], _, bi, bs => (bi, bs)
  | s :: rest, i, bi, bs =>
    if bs < s then loopAux rest (i + 1) (i : Int) s
    else loopAux rest (i + 1) bi bs

/-- Lines 51-71 of the source: resolve a query against the candidate names;
`none` models the `return None` of the rejection branch
(`best_match_idx == -1 or best_match_score < 0.3`). -/
def resolve (query : List Char) (cands : List (List Char)) : Option Nat :=
  let scores := cands.map (matchScore query)
  let r := loopAux scores 0 (-1) 0
  if r.1 = -1 ∨ r.2 < mkRat 3 10 then none else some r.1.toNat

/-- The loop's running maximum over all scores, seeded with the initial
`best_match_score = 0`.  Since every score is nonnegative this coincides with
the best score over the candidates whenever any exist. -/
def bestScore (query : List Char) (cands : List (List Char)) : ℚ :=
  (cands.map (matchScore query)).foldl max 0

/-! ## Recommendation selection (`find_best_crossfade_from_match`, lines 76-95)
and the surrounding `try/except` (lines 39-101) -/

/-- Pair each element with its index, starting at `i`. -/
def withIdx : List α → Nat → List (Nat × α)
  | [], _ => []
  | a :: r, i => (i, a) :: withIdx r (i + 1)

/-- Insert into a sorted list, in front of the first element that is not
`le`-below the inserted one. -/
def insertLe (le : α → α → Bool) (a : α) : List α → List α
  | [] => [a]
  | b :: r => if le a b then a :: b :: r else b :: insertLe le a r

/-- Insertion sort by the boolean relation `le` (structural recursion, so
concrete runs reduce inside the kernel). -/
def sortLe (le : α → α → Bool) : List α → List α
  | [] => []
  | a :: r => insertLe le a (sortLe le r)

/-- Line 80 of the source, `similarities.argsort()[::-1]`, kept as pairs
`(index, value)`: sort the indexed row by value ascending and reverse.
NumPy's quicksort order on equal values is unspecified; any sort gives the
properties proved below, which do not depend on tie order. -/
def similarOrder [LinearOrder α] (row : List α) : List (Nat × α) :=
  (sortLe (fun p q => decide (p.2 ≤ q.2)) (withIdx row 0)).reverse

/-- Lines 88-92 of the source: the first index in descending-similarity order
that differs from the target index. -/
def recommendIndex [LinearOrder α] (row : List α) (t : Nat) : Option Nat :=
  ((similarOrder row).find? (fun p => decide (p.1 ≠ t))).map Prod.fst

/-- The body of `find_best_crossfade_from_match` (lines 40-95) with its
fallible operations made explicit: `similarity_matrix[idx, :]` raises when the
matched index is outside the matrix, and `df.iloc[idx]['filename']` raises
when a similarity index is outside the table — both for the indices touched by
the debug loop over the top 5 (lines 82-85) and for the selected index
(line 90).  `Except.error` models an uncaught Python exception inside the
`try`. -/
def findBestBody [LinearOrder α] (target : List Char) (df : List (List Char))
    (sim : List (List α)) : Except Unit (Option (List Char)) :=
  let scores := df.map (matchScore target)
  let r := loopAux scores 0 (-1) 0
  if r.1 = -1 ∨ r.2 < mkRat 3 10 then .ok none
  else
    match sim.get? r.1.toNat with
    | none => .error ()
    | some row =>
      let order := (similarOrder row).map Prod.fst
      if (order.take 5).any (fun i => decide (i ≠ r.1.toNat) && (df.get? i).isNone)
      then .error ()
      else
        match recommendIndex row r.1.toNat with
        | none => .ok none
        | some j =>
          match df.get? j with
          | none => .error ()
          | some nm => .ok (some nm)

/-- Lines 39-101 of the source: `find_best_crossfade_from_match` runs its body
inside `try ... except Exception: return None`. -/
def find_best_crossfade_from_match [LinearOrder α] (target : List Char)
    (df : List (List Char)) (sim : List (List α)) : Option (List Char) :=
  match findBestBody target df sim with
  | .ok r => r
  | .error _ => none

/-! ## The numeric pipeline of `main` (lines 149-174), over the reals -/

noncomputable section

/-- Column mean, as computed by `StandardScaler` (lines 156-160). -/
def colMean {n d : ℕ} (M : Fin n → Fin d → ℝ) (j : Fin d) : ℝ :=
  (∑ i, M i j) / n

/-- Population column variance (`StandardScaler` divides by `N`, not `N-1`). -/
def colVar {n d : ℕ} (M : Fin n → Fin d → ℝ) (j : Fin d) : ℝ :=
  (∑ i, (M i j - colMean M j) ^ 2) / n

/-- Population column standard deviation. -/
def colStd {n d : ℕ} (M : Fin n → Fin d → ℝ) (j : Fin d) : ℝ :=
  Real.sqrt (colVar M j)

/-- `StandardScaler`'s divisor: a zero standard deviation is replaced by `1`
(`sklearn`'s `_handle_zeros_in_scale`), so constant columns map to zeros
instead of dividing by zero. -/
def colScale {n d : ℕ} (M : Fin n → Fin d → ℝ) (j : Fin d) : ℝ :=
  if colStd M j = 0 then 1 else colStd M j

/-- Lines 156-160 of the source: `scaler.fit_transform`, column by column. -/
def standardizeMat {n d : ℕ} (M : Fin n → Fin d → ℝ) : Fin n → Fin d → ℝ :=
  fun i j => (M i j - colMean M j) / colScale M j

/-- Dot product of two feature vectors. -/
def dotProd {d : ℕ} (u v : Fin d → ℝ) : ℝ :=
  ∑ k, u k * v k

/-- Euclidean norm of a feature vector. -/
def l2norm {d : ℕ} (u : Fin d → ℝ) : ℝ :=
  Real.sqrt (∑ k, u k ^ 2)

/-- `sklearn.preprocessing.normalize` replaces a zero row norm by `1` before
dividing, which is what makes `cosine_similarity` return `0` instead of NaN
on zero vectors. -/
def normScale {d : ℕ} (u : Fin d → ℝ) : ℝ :=
  if l2norm u = 0 then 1 else l2norm u

/-- Lines 163-164 of the source: one entry of
`sklearn.metrics.pairwise.cosine_similarity`. -/
def cosineSim {d : ℕ} (u v : Fin d → ℝ) : ℝ :=
  dotProd u v / (normScale u * normScale v)

/-- Line 168 of the source: `tempo_matrix[i, j] = |tempo_end[i] - tempo_start[j]|`. -/
def tempoDiff {n : ℕ} (te ts : Fin n → ℝ) (i j : Fin n) : ℝ :=
  |te i - ts j|

/-- Line 169 of the source: `tempo_matrix.max()`.  NumPy's `max` over the
(nonempty) matrix is modelled as a `max`-fold seeded with `0`; as every entry
is an absolute value, the seed never exceeds the true maximum. -/
def tempoMaxDiff {n : ℕ} (te ts : Fin n → ℝ) : ℝ :=
  Finset.univ.fold max 0 (fun p : Fin n × Fin n => tempoDiff te ts p.1 p.2)

/-- Line 169 of the source:
`tempo_similarity = 1 - tempo_matrix / (tempo_matrix.max() + 1e-8)`. -/
def tempoSim {n : ℕ} (te ts : Fin n → ℝ) (i j : Fin n) : ℝ :=
  1 - tempoDiff te ts i j / (tempoMaxDiff te ts + 1e-8)

/-- Line 13 of the source. -/
def MFCC_WEIGHT : ℝ := 0.4

/-- Line 14 of the source. -/
def CHROMA_WEIGHT : ℝ := 0.2

/-- Line 15 of the source. -/
def TEMPO_WEIGHT : ℝ := 0.4

/-- The per-track feature table after parsing (lines 136-154): `n` tracks,
timbre (MFCC) vectors of length `dm`, pitch-class (chroma) vectors of length
`dc`, and scalar tempos, each at track start and end. -/
structure Dataset (n dm dc : ℕ) where
  mfccStart : Fin n → Fin dm → ℝ
  mfccEnd : Fin n → Fin dm → ℝ
  chromaStart : Fin n → Fin dc → ℝ
  chromaEnd : Fin n → Fin dc → ℝ
  tempoStart : Fin n → ℝ
  tempoEnd : Fin n → ℝ

/-- Lines 156-174 of the source: standardize the four feature matrices, take
cosine similarities of scaled end-features against scaled start-features, the
tempo proximity, and combine with the configured weights. -/
def similarityMatrix {n dm dc : ℕ} (ds : Dataset n dm dc) : Fin n → Fin n → ℝ :=
  fun i j =>
    MFCC_WEIGHT * cosineSim (standardizeMat ds.mfccEnd i) (standardizeMat ds.mfccStart j)
      + CHROMA_WEIGHT * cosineSim (standardizeMat ds.chromaEnd i) (standardizeMat ds.chromaStart j)
      + TEMPO_WEIGHT * tempoSim ds.tempoEnd ds.tempoStart i j

end

/-! ## Character-level lemmas -/

theorem charEq_iff_toNat {c d : Char} : c = d ↔ c.toNat = d.toNat := by
  constructor
  · intro h
    rw [h]
  · intro h
    apply Char.ext
    apply UInt32.eq_of_toBitVec_eq
    apply BitVec.eq_of_toNat_eq
    exact h

theorem toNat_ofNat_valid (n : Nat) (h : n.isValidChar) : (Char.ofNat n).toNat = n := by
  rw [Char.ofNat, dif_pos h]
  rfl

theorem toNat_pyLower (c : Char) :
    (pyLower c).toNat =
      if 65 ≤ c.toNat ∧ c.toNat ≤ 90 then c.toNat + 32 else c.toNat := by
  unfold pyLower
  split_ifs with h
  · exact toNat_ofNat_valid _ (Or.inl (by omega))
  · rfl

theorem pyLower_idem (c : Char) : pyLower (pyLower c) = pyLower c := by
  rw [charEq_iff_toNat]
  have h1 := toNat_pyLower c
  have h2 := toNat_pyLower (pyLower c)
  split_ifs at h1 h2 <;> omega

theorem pyLower_of_not_upper {c : Char} (h : ¬(65 ≤ c.toNat ∧ c.toNat ≤ 90)) :
    pyLower c = c := by
  unfold pyLower
  exact if_neg h

theorem isSp_iff_toNat {c : Char} :
    isSp c = true ↔
      (c.toNat = 32 ∨ c.toNat = 9 ∨ c.toNat = 10 ∨ c.toNat = 13 ∨
        c.toNat = 11 ∨ c.toNat = 12) := by
  simp only [isSp, decide_eq_true_eq]
  constructor
  · intro h
    rcases h with h | h | h | h | h | h <;> rw [h] <;> simp
  · intro h
    rcases h with h | h | h | h | h | h
    · exact Or.inl (charEq_iff_toNat.mpr h)
    · exact Or.inr (Or.inl (charEq_iff_toNat.mpr h))
    · exact Or.inr (Or.inr (Or.inl (charEq_iff_toNat.mpr h)))
    · exact Or.inr (Or.inr (Or.inr (Or.inl (charEq_iff_toNat.mpr h))))
    · exact Or.inr (Or.inr (Or.inr (Or.inr (Or.inl (charEq_iff_toNat.mpr h)))))
    · exact Or.inr (Or.inr (Or.inr (Or.inr (Or.inr (charEq_iff_toNat.mpr h)))))

theorem isSp_pyLower (c : Char) : isSp (pyLower c) = isSp c := by
  by_cases h : 65 ≤ c.toNat ∧ c.toNat ≤ 90
  · have h1 : (pyLower c).toNat = c.toNat + 32 := by
      rw [toNat_pyLower, if_pos h]
    cases hl : isSp (pyLower c) with
    | true =>
      have := isSp_iff_toNat.mp hl
      omega
    | false =>
      cases hr : isSp c with
      | true =>
        have := isSp_iff_toNat.mp hr
        omega
      | false => rfl
  · rw [pyLower_of_not_upper h]

theorem isSp_pyLower_of_isSp {c : Char} (h : isSp c = true) : pyLower c = c := by
  have := isSp_iff_toNat.mp h
  apply pyLower_of_not_upper
  omega

theorem wordChar_iff_toNat {c : Char} :
    wordChar c = true ↔
      ((65 ≤ c.toNat ∧ c.toNat ≤ 90) ∨ (97 ≤ c.toNat ∧ c.toNat ≤ 122) ∨
        (48 ≤ c.toNat ∧ c.toNat ≤ 57) ∨ c.toNat = 95) := by
  simp only [wordChar, decide_eq_true_eq]
  constructor
  · intro h
    rcases h with h | h | h | h
    · exact Or.inl h
    · exact Or.inr (Or.inl h)
    · exact Or.inr (Or.inr (Or.inl h))
    · rw [h]
      simp
  · intro h
    rcases h with h | h | h | h
    · exact Or.inl h
    · exact Or.inr (Or.inl h)
    · exact Or.inr (Or.inr (Or.inl h))
    · exact Or.inr (Or.inr (Or.inr (charEq_iff_toNat.mpr h)))

theorem wordChar_pyLower (c : Char) : wordChar (pyLower c) = wordChar c := by
  by_cases h : 65 ≤ c.toNat ∧ c.toNat ≤ 90
  · have h1 : (pyLower c).toNat = c.toNat + 32 := by
      rw [toNat_pyLower, if_pos h]
    have hr : wordChar c = true := wordChar_iff_toNat.mpr (Or.inl h)
    have hl : wordChar (pyLower c) = true :=
      wordChar_iff_toNat.mpr (Or.inr (Or.inl (by omega)))
    rw [hl, hr]
  · rw [pyLower_of_not_upper h]

theorem pyLower_eq_iff {d : Char}
    (hd : d.toNat < 65 ∨ (90 < d.toNat ∧ d.toNat < 97) ∨ 122 < d.toNat)
    (c : Char) : pyLower c = d ↔ c = d := by
  by_cases h : 65 ≤ c.toNat ∧ c.toNat ≤ 90
  · have h1 : (pyLower c).toNat = c.toNat + 32 := by
      rw [toNat_pyLower, if_pos h]
    constructor
    · intro he
      have := charEq_iff_toNat.mp he
      omega
    · intro he
      have := charEq_iff_toNat.mp he
      omega
  · rw [pyLower_of_not_upper h]

theorem wordChar_not_open {c : Char} (h : wordChar c = true) :
    ¬(c = '(' ∨ c = '[') := by
  have hw := wordChar_iff_toNat.mp h
  have h1 : ('(').toNat = 40 := by decide
  have h2 : ('[').toNat = 91 := by decide
  intro hc
  rcases hc with hc | hc <;> rw [charEq_iff_toNat] at hc <;>
    rw [hc] at hw <;> simp only [h1, h2] at hw <;> omega

/-! ## Whitespace collapsing and stripping -/

theorem stAfter_cons (b : Bool) (c : Char) (r : List Char) :
    stAfter b (c :: r) = stAfter (isSp c) r := rfl

theorem collapseAux_append (b : Bool) (xs ys : List Char) :
    collapseAux b (xs ++ ys) = collapseAux b xs ++ collapseAux (stAfter b xs) ys := by
  induction xs generalizing b with
  | nil => rfl
  | cons c r ih =>
    by_cases hc : isSp c = true <;>
      cases b <;>
      simp [collapseAux, hc, stAfter_cons, ih]

theorem collapseAux_spacefree (b : Bool) (w : List Char)
    (hw : ∀ c ∈ w, isSp c = false) : collapseAux b w = w := by
  induction w generalizing b with
  | nil => rfl
  | cons c r ih =>
    have hc : isSp c = false := hw c (by simp)
    have ih' := ih false (fun d hd => hw d (by simp [hd]))
    simp [collapseAux, hc, ih']

theorem collapseAux_dropWhile_true (r : List Char) :
    collapseAux false (r.dropWhile isSp) = (collapseAux true r).dropWhile isSp := by
  induction r with
  | nil => rfl
  | cons d r' ih =>
    by_cases hd : isSp d = true
    · simp [collapseAux, List.dropWhile_cons, hd, ih]
    · simp [collapseAux, List.dropWhile_cons, hd]

theorem collapseAux_dropWhile (m : List Char) :
    collapseAux false (m.dropWhile isSp) = (collapseAux false m).dropWhile isSp := by
  cases m with
  | nil => rfl
  | cons c r =>
    by_cases hc : isSp c = true
    · have hsp : isSp ' ' = true := by decide
      simp [collapseAux, List.dropWhile_cons, hc, hsp, collapseAux_dropWhile_true]
    · simp [collapseAux, List.dropWhile_cons, hc]

theorem stripEnd_append_sp {x : Char} (v : List Char) (hx : isSp x = true) :
    stripEnd (v ++ [x]) = stripEnd v := by
  simp [stripEnd, hx]

theorem stripEnd_append_nonsp {x : Char} (v : List Char) (hx : isSp x = false) :
    stripEnd (v ++ [x]) = v ++ [x] := by
  simp [stripEnd, hx]

theorem collapseAux_single (b : Bool) (x : Char) :
    collapseAux b [x] = if isSp x = true then (if b then [] else [' ']) else [x] := by
  cases b <;> by_cases hx : isSp x = true <;> simp [collapseAux, hx]

theorem collapseWS_stripEnd (u : List Char) :
    collapseWS (stripEnd u) = stripEnd (collapseWS u) := by
  induction u using List.reverseRecOn with
  | nil => rfl
  | append_singleton xs x ih =>
    have hA : collapseWS (xs ++ [x]) =
        collapseWS xs ++ collapseAux (stAfter false xs) [x] :=
      collapseAux_append false xs [x]
    cases hx : isSp x with
    | true =>
      rw [stripEnd_append_sp xs hx, ih, hA, collapseAux_single, if_pos hx]
      cases hst : stAfter false xs
      · rw [if_neg (by simp)]
        rw [stripEnd_append_sp _ (by decide : isSp ' ' = true)]
      · rw [if_pos rfl, List.append_nil]
    | false =>
      rw [stripEnd_append_nonsp xs hx, hA, collapseAux_single,
        if_neg (by simp [hx]), stripEnd_append_nonsp _ hx]

theorem pyStrip_eq_stripEnd (l : List Char) :
    pyStrip l = stripEnd (l.dropWhile isSp) := rfl

theorem collapse_strip_comm (l : List Char) :
    collapseWS (pyStrip l) = pyStrip (collapseWS l) := by
  rw [pyStrip_eq_stripEnd, pyStrip_eq_stripEnd, collapseWS_stripEnd]
  show stripEnd (collapseAux false (l.dropWhile isSp)) = _
  rw [collapseAux_dropWhile]
  rfl

theorem dropWhile_idem (p : α → Bool) (l : List α) :
    (l.dropWhile p).dropWhile p = l.dropWhile p := by
  cases h : l.dropWhile p with
  | nil => rfl
  | cons c t =>
    have hd := List.head?_dropWhile_not p l
    rw [h] at hd
    simp only [List.head?_cons] at hd
    rw [List.dropWhile_cons_of_neg (by simp [hd])]

theorem getLast?_dropWhile (p : α → Bool) (l : List α)
    (h : l.dropWhile p ≠ []) : (l.dropWhile p).getLast? = l.getLast? := by
  obtain ⟨pre, hpre⟩ := List.dropWhile_suffix (l := l) p
  conv_rhs => rw [← hpre]
  rw [List.getLast?_append]
  cases hdw : (l.dropWhile p).getLast? with
  | none => exact absurd (List.getLast?_eq_none_iff.mp hdw) h
  | some c => rfl

theorem dropWhile_pyStrip (x : List Char) :
    (pyStrip x).dropWhile isSp = pyStrip x := by
  cases hrev : pyStrip x with
  | nil => rfl
  | cons c t =>
    have hw : pyStrip x = ((x.dropWhile isSp).reverse.dropWhile isSp).reverse := rfl
    have hne : (x.dropWhile isSp).reverse.dropWhile isSp ≠ [] := by
      intro h0
      rw [hw, h0] at hrev
      exact absurd hrev (by simp)
    have hhead : (pyStrip x).head? = some c := by rw [hrev]; rfl
    have hlast : ((x.dropWhile isSp).reverse.dropWhile isSp).getLast? = some c := by
      rw [hw] at hhead
      rwa [List.head?_reverse] at hhead
    rw [getLast?_dropWhile _ _ hne, List.getLast?_reverse] at hlast
    have hcsp : isSp c = false := by
      have hd := List.head?_dropWhile_not isSp x
      rw [hlast] at hd
      simpa using hd
    rw [← hrev, hrev, List.dropWhile_cons_of_neg (by simp [hcsp])]

theorem pyStrip_idem (x : List Char) : pyStrip (pyStrip x) = pyStrip x := by
  rw [pyStrip_eq_stripEnd (pyStrip x), dropWhile_pyStrip]
  show (((pyStrip x).reverse).dropWhile isSp).reverse = pyStrip x
  have hw : pyStrip x = ((x.dropWhile isSp).reverse.dropWhile isSp).reverse := rfl
  rw [hw, List.reverse_reverse, dropWhile_idem]

theorem canonAux_fix (l : List Char) (b : Bool) (h : canonAux b l = true) :
    collapseAux b l = l := by
  induction l generalizing b with
  | nil => rfl
  | cons c r ih =>
    by_cases hc : c = ' '
    · subst hc
      simp [canonAux] at h
      rw [h.1]
      have hsp : isSp ' ' = true := by decide
      simp [collapseAux, hsp, ih _ h.2]
    · simp only [canonAux, if_neg hc] at h
      by_cases hs : isSp c = true
      · rw [if_pos hs] at h
        exact absurd h (by simp)
      · rw [if_neg hs] at h
        simp [collapseAux, hs, ih _ h]

theorem canonAux_collapse (x : List Char) (b : Bool) :
    canonAux b (collapseAux b x) = true := by
  induction x generalizing b with
  | nil => rfl
  | cons c r ih =>
    by_cases hc : isSp c = true
    · cases b
      · rw [show collapseAux false (c :: r) = ' ' :: collapseAux true r by
          simp [collapseAux, hc]]
        simp only [canonAux, if_pos rfl, Bool.not_false, Bool.true_and]
        exact ih true
      · rw [show collapseAux true (c :: r) = collapseAux true r by
          simp [collapseAux, hc]]
        exact ih true
    · rw [show collapseAux b (c :: r) = c :: collapseAux false r by
        simp [collapseAux, hc]]
      have hcsp : c ≠ ' ' := by
        intro h0
        rw [h0] at hc
        exact hc (by decide)
      rw [canonAux, if_neg hcsp, if_neg (by simp [hc])]
      exact ih false

/-! ## Bracket-stripping lemmas and normalization invariants -/

theorem findCloser_subset {l r : List Char} (h : findCloser l = some r) :
    ∀ c ∈ r, c ∈ l := by
  induction l with
  | nil => simp [findCloser] at h
  | cons d t ih =>
    rw [findCloser] at h
    split_ifs at h with h1 h2
    · cases h
      intro c hc
      exact List.mem_cons_of_mem _ hc
    · exact fun c hc => List.mem_cons_of_mem _ (ih h c hc)

theorem stripBracketsF_subset (f : Nat) (l : List Char) :
    ∀ c ∈ stripBracketsF f l, c ∈ l := by
  induction f generalizing l with
  | zero => simp [stripBracketsF]
  | succ f ih =>
    cases l with
    | nil => simp [stripBracketsF]
    | cons d rest =>
      rw [stripBracketsF]
      split_ifs with h1
      · cases hfc : findCloser rest with
        | some rest2 =>
          intro c hc
          exact List.mem_cons_of_mem _ (findCloser_subset hfc c (ih rest2 c hc))
        | none =>
          intro c hc
          rcases List.mem_cons.mp hc with hc | hc
          · exact hc ▸ List.mem_cons_self _ _
          · exact List.mem_cons_of_mem _ (ih rest c hc)
      · intro c hc
        rcases List.mem_cons.mp hc with hc | hc
        · exact hc ▸ List.mem_cons_self _ _
        · exact List.mem_cons_of_mem _ (ih rest c hc)

theorem stripBracketsF_no_open (f : Nat) (l : List Char)
    (h : ∀ c ∈ l, ¬(c = '(' ∨ c = '[')) : stripBracketsF f l = l := by
  induction f generalizing l with
  | zero => rfl
  | succ f ih =>
    cases l with
    | nil => rfl
    | cons d rest =>
      rw [stripBracketsF, if_neg (h d (by simp))]
      rw [ih rest (fun c hc => h c (List.mem_cons_of_mem _ hc))]

theorem collapseAux_mem (b : Bool) (x : List Char) :
    ∀ c ∈ collapseAux b x, c = ' ' ∨ (c ∈ x ∧ isSp c = false) := by
  induction x generalizing b with
  | nil => simp [collapseAux]
  | cons d r ih =>
    intro c hc
    by_cases hd : isSp d = true
    · have hc' : c ∈ ' ' :: collapseAux true r ∨ c ∈ collapseAux true r := by
        rw [collapseAux, if_pos hd] at hc
        cases b
        · rw [if_neg (by simp)] at hc
          exact Or.inl hc
        · rw [if_pos rfl] at hc
          exact Or.inr hc
      have hmem : c = ' ' ∨ c ∈ collapseAux true r := by
        rcases hc' with hc' | hc'
        · exact List.mem_cons.mp hc'
        · exact Or.inr hc'
      rcases hmem with hmem | hmem
      · exact Or.inl hmem
      · rcases ih true c hmem with h1 | h1
        · exact Or.inl h1
        · exact Or.inr ⟨List.mem_cons_of_mem _ h1.1, h1.2⟩
    · rw [collapseAux, if_neg hd] at hc
      rcases List.mem_cons.mp hc with hc | hc
      · subst hc
        exact Or.inr ⟨List.mem_cons_self _ _, by simpa using hd⟩
      · rcases ih false c hc with h1 | h1
        · exact Or.inl h1
        · exact Or.inr ⟨List.mem_cons_of_mem _ h1.1, h1.2⟩

theorem pyStrip_subset (x : List Char) : ∀ c ∈ pyStrip x, c ∈ x := by
  intro c hc
  unfold pyStrip at hc
  rw [List.mem_reverse] at hc
  have hc2 := (List.dropWhile_sublist (l := (x.dropWhile isSp).reverse) isSp).subset hc
  rw [List.mem_reverse] at hc2
  exact (List.dropWhile_sublist (l := x) isSp).subset hc2

theorem map_fix {f : α → α} {l : List α} (h : ∀ c ∈ l, f c = c) :
    l.map f = l := by
  induction l with
  | nil => rfl
  | cons d r ih =>
    rw [List.map_cons, h d (by simp), ih fun c hc => h c (by simp [hc])]

/-- Every character of a normalized name is a space or a lowered word
character (in particular lowercase-stable and not an opening bracket). -/
theorem normalizeStr_chars (s : List Char) :
    ∀ c ∈ normalizeStr s,
      c = ' ' ∨ (wordChar c = true ∧ pyLower c = c ∧ isSp c = false) := by
  intro c hc
  unfold normalizeStr collapseWS at hc
  rcases collapseAux_mem false _ c hc with h1 | h1
  · exact Or.inl h1
  · have h2 := pyStrip_subset _ c h1.1
    unfold lowerStr at h2
    rcases List.mem_map.mp h2 with ⟨c', hc', hcc⟩
    unfold keepWordSp at hc'
    have hc'' := List.mem_filter.mp hc'
    have hor : wordChar c' = true ∨ isSp c' = true := by
      have := hc''.2
      rcases Bool.or_eq_true_iff.mp this with h | h
      · exact Or.inl h
      · exact Or.inr h
    rcases hor with hw | hs
    · refine Or.inr ⟨?_, ?_, h1.2⟩
      · rw [← hcc, wordChar_pyLower, hw]
      · rw [← hcc, pyLower_idem]
    · exfalso
      rw [isSp_pyLower_of_isSp hs] at hcc
      rw [hcc] at hs
      rw [h1.2] at hs
      exact Bool.false_ne_true hs

/-- `normalize_song_name`'s string pipeline is idempotent. -/
theorem normalizeStr_idem (s : List Char) :
    normalizeStr (normalizeStr s) = normalizeStr s := by
  have hchars := normalizeStr_chars s
  set o := normalizeStr s with ho
  have h1 : stripBrackets o = o := by
    apply stripBracketsF_no_open
    intro c hc
    rcases hchars c hc with h | h
    · subst h
      decide
    · exact wordChar_not_open h.1
  have h2 : keepWordSp o = o := by
    apply List.filter_eq_self.mpr
    intro c hc
    rcases hchars c hc with h | h
    · subst h
      decide
    · rw [h.1]
      rfl
  have h3 : lowerStr o = o := by
    apply map_fix
    intro c hc
    rcases hchars c hc with h | h
    · subst h
      decide
    · exact h.2.1
  have h4 : pyStrip o = o := by
    have hcomm : o = pyStrip (collapseWS (lowerStr (keepWordSp (stripBrackets s)))) := by
      rw [ho]
      unfold normalizeStr
      exact collapse_strip_comm _
    rw [hcomm, pyStrip_idem]
  have h5 : collapseWS o = o := by
    apply canonAux_fix
    rw [ho]
    unfold normalizeStr collapseWS
    exact canonAux_collapse _ false
  show collapseWS (pyStrip (lowerStr (keepWordSp (stripBrackets o)))) = o
  rw [h1, h2, h3, h4, h5]

/-! ## Case-insensitivity: `normalizeStr` absorbs lowering -/

theorem lowerStr_idem (x : List Char) : lowerStr (lowerStr x) = lowerStr x := by
  unfold lowerStr
  rw [List.map_map]
  apply List.map_congr_left
  intro a _
  exact pyLower_idem a

theorem keepWordSp_lowerStr (x : List Char) :
    keepWordSp (lowerStr x) = lowerStr (keepWordSp x) := by
  unfold keepWordSp lowerStr
  rw [List.filter_map]
  congr 1
  apply List.filter_congr
  intro c _
  simp [Function.comp, wordChar_pyLower, isSp_pyLower]

theorem findCloser_lowerStr (l : List Char) :
    findCloser (lowerStr l) = (findCloser l).map lowerStr := by
  induction l with
  | nil => rfl
  | cons c r ih =>
    have hpar : pyLower c = ')' ↔ c = ')' := pyLower_eq_iff (by decide) c
    have hbrk : pyLower c = ']' ↔ c = ']' := pyLower_eq_iff (by decide) c
    have hnl : pyLower c = '\n' ↔ c = '\n' := pyLower_eq_iff (by decide) c
    show findCloser (pyLower c :: lowerStr r) = _
    rw [findCloser, findCloser]
    by_cases h1 : c = ')' ∨ c = ']'
    · rw [if_pos h1, if_pos (by
        rcases h1 with h1 | h1 <;> subst h1 <;>
          first
          | exact Or.inl (by decide)
          | exact Or.inr (by decide))]
      rfl
    · rw [if_neg h1, if_neg (by simp [hpar, hbrk]; tauto)]
      by_cases h2 : c = '\n'
      · rw [if_pos h2, if_pos (hnl.mpr h2)]
        rfl
      · rw [if_neg h2, if_neg (by simp [hnl, h2]), ih]

theorem stripBracketsF_lowerStr (f : Nat) (l : List Char) :
    stripBracketsF f (lowerStr l) = lowerStr (stripBracketsF f l) := by
  induction f generalizing l with
  | zero => rfl
  | succ f ih =>
    cases l with
    | nil => rfl
    | cons c rest =>
      have hop : pyLower c = '(' ↔ c = '(' := pyLower_eq_iff (by decide) c
      have hob : pyLower c = '[' ↔ c = '[' := pyLower_eq_iff (by decide) c
      show stripBracketsF (f + 1) (pyLower c :: lowerStr rest) = _
      rw [stripBracketsF, stripBracketsF]
      by_cases h1 : c = '(' ∨ c = '['
      · rw [if_pos (by
          rcases h1 with h1 | h1 <;> subst h1 <;>
            first
            | exact Or.inl (by decide)
            | exact Or.inr (by decide)), if_pos h1,
          findCloser_lowerStr]
        cases hfc : findCloser rest with
        | some rest2 => exact ih rest2
        | none =>
          show pyLower c :: stripBracketsF f (lowerStr rest) = _
          rw [ih]
          rfl
      · rw [if_neg (by simp [hop, hob]; tauto), if_neg h1]
        show pyLower c :: stripBracketsF f (lowerStr rest) = _
        rw [ih]
        rfl

theorem stripBrackets_lowerStr (l : List Char) :
    stripBrackets (lowerStr l) = lowerStr (stripBrackets l) := by
  unfold stripBrackets
  rw [show (lowerStr l).length = l.length from List.length_map l pyLower]
  exact stripBracketsF_lowerStr l.length l

/-- Lowering the input first does not change the normalized name. -/
theorem normalizeStr_lowerStr (s : List Char) :
    normalizeStr (lowerStr s) = normalizeStr s := by
  unfold normalizeStr
  rw [stripBrackets_lowerStr, keepWordSp_lowerStr, lowerStr_idem]

/-! ## The matching loop of `find_best_crossfade_from_match` -/

theorem foldl_max_of_le {l : List ℚ} {b : ℚ} (h : ∀ x ∈ l, x ≤ b) :
    l.foldl max b = b := by
  induction l generalizing b with
  | nil => rfl
  | cons s rest ih =>
    rw [List.foldl_cons, max_eq_left (h s (by simp))]
    exact ih fun x hx => h x (by simp [hx])

theorem le_foldl_max_init (l : List ℚ) (b : ℚ) : b ≤ l.foldl max b := by
  induction l generalizing b with
  | nil => exact le_refl b
  | cons s rest ih =>
    rw [List.foldl_cons]
    exact le_trans (le_max_left b s) (ih (max b s))

theorem le_foldl_max_of_mem {l : List ℚ} {x : ℚ} (hx : x ∈ l) (b : ℚ) :
    x ≤ l.foldl max b := by
  induction l generalizing b with
  | nil => simp at hx
  | cons s rest ih =>
    rw [List.foldl_cons]
    rcases List.mem_cons.mp hx with hx | hx
    · rw [hx]
      exact le_trans (le_max_right b s) (le_foldl_max_init rest _)
    · exact ih hx _

theorem foldl_max_mem (l : List ℚ) (b : ℚ) :
    l.foldl max b = b ∨ l.foldl max b ∈ l := by
  induction l generalizing b with
  | nil => exact Or.inl rfl
  | cons s rest ih =>
    rw [List.foldl_cons]
    rcases ih (max b s) with h | h
    · rcases max_choice b s with hm | hm
      · exact Or.inl (h.trans hm)
      · exact Or.inr (by rw [h, hm]; simp)
    · exact Or.inr (by simp [h])

theorem loopAux_snd (scores : List ℚ) (i0 : Nat) (bi : Int) (bs : ℚ) :
    (loopAux scores i0 bi bs).2 = scores.foldl max bs := by
  induction scores generalizing i0 bi bs with
  | nil => rfl
  | cons s rest ih =>
    rw [loopAux, List.foldl_cons]
    by_cases h : bs < s
    · rw [if_pos h, ih, max_eq_right h.le]
    · rw [if_neg h, ih, max_eq_left (le_of_not_lt h)]

theorem loopAux_of_le (scores : List ℚ) (i0 : Nat) (bi : Int) (bs : ℚ)
    (h : ∀ s ∈ scores, s ≤ bs) : loopAux scores i0 bi bs = (bi, bs) := by
  induction scores generalizing i0 with
  | nil => rfl
  | cons s rest ih =>
    rw [loopAux, if_neg (not_lt.mpr (h s (by simp)))]
    exact ih (i0 + 1) (fun x hx => h x (by simp [hx]))

theorem loopAux_fst_of_lt (scores : List ℚ) (i0 : Nat) (bi : Int) (bs : ℚ)
    (h : bs < scores.foldl max bs) :
    (loopAux scores i0 bi bs).1 =
      ((i0 + scores.findIdx (fun s => decide (s = scores.foldl max bs)) : Nat) : Int) := by
  induction scores generalizing i0 bi bs with
  | nil => exact absurd h (lt_irrefl bs)
  | cons s rest ih =>
    rw [List.foldl_cons] at h ⊢
    rw [loopAux]
    by_cases hlt : bs < s
    · rw [if_pos hlt, max_eq_right hlt.le] at *
      by_cases hall : ∀ x ∈ rest, x ≤ s
      · have hM : rest.foldl max s = s := foldl_max_of_le hall
        rw [hM]
        rw [loopAux_of_le rest (i0 + 1) (i0 : Int) s hall]
        rw [List.findIdx_cons]
        simp
      · push_neg at hall
        obtain ⟨x, hxmem, hxs⟩ := hall
        have hs : s < rest.foldl max s :=
          lt_of_lt_of_le hxs (le_foldl_max_of_mem hxmem s)
        rw [ih (i0 + 1) (i0 : Int) s hs, List.findIdx_cons]
        have hsM : ¬(s = rest.foldl max s) := ne_of_lt hs
        simp only [decide_eq_false hsM, cond_false]
        push_cast
        ring
    · rw [if_neg hlt, max_eq_left (le_of_not_lt hlt)] at *
      rw [ih (i0 + 1) bi bs h, List.findIdx_cons]
      have hsM : ¬(s = rest.foldl max bs) := by
        intro h0
        have := le_of_not_lt hlt
        rw [h0] at this
        exact absurd (lt_of_lt_of_le h this) (lt_irrefl _)
      simp only [decide_eq_false hsM, cond_false]
      push_cast
      ring

theorem matchScore_nonneg (q c : List Char) : 0 ≤ matchScore q c := by
  simp only [matchScore]
  split
  · norm_num
  · rw [Rat.mkRat_eq_divInt, Rat.divInt_eq_div]
    positivity

theorem bestScore_nonneg (q : List Char) (cs : List (List Char)) :
    0 ≤ bestScore q cs := le_foldl_max_init _ 0

theorem threeTenths : mkRat 3 10 = 3 / 10 := by
  rw [Rat.mkRat_eq_divInt, Rat.divInt_eq_div]
  norm_num

/-! ## Sorting and selection lemmas -/

theorem mem_insertLe {le : α → α → Bool} {a x : α} {l : List α} :
    x ∈ insertLe le a l ↔ x = a ∨ x ∈ l := by
  induction l with
  | nil => simp [insertLe]
  | cons b r ih =>
    rw [insertLe]
    split_ifs with h
    · simp [List.mem_cons]
    · simp only [List.mem_cons, ih]
      tauto

theorem mem_sortLe {le : α → α → Bool} {x : α} {l : List α} :
    x ∈ sortLe le l ↔ x ∈ l := by
  induction l with
  | nil => simp [sortLe]
  | cons a r ih =>
    rw [sortLe, mem_insertLe, ih, List.mem_cons]

theorem pairwise_insertLe {le : α → α → Bool}
    (htot : ∀ a b, le a b = true ∨ le b a = true)
    (htrans : ∀ a b c, le a b = true → le b c = true → le a c = true)
    {a : α} {l : List α} (hl : l.Pairwise (fun x y => le x y = true)) :
    (insertLe le a l).Pairwise (fun x y => le x y = true) := by
  induction l with
  | nil => simp [insertLe]
  | cons b r ih =>
    rw [insertLe]
    rcases List.pairwise_cons.mp hl with ⟨hb, hr⟩
    split_ifs with h
    · refine List.pairwise_cons.mpr ⟨?_, hl⟩
      intro x hx
      rcases List.mem_cons.mp hx with hx | hx
      · rw [hx]
        exact h
      · exact htrans a b x h (hb x hx)
    · refine List.pairwise_cons.mpr ⟨?_, ih hr⟩
      intro x hx
      rcases mem_insertLe.mp hx with hx | hx
      · rw [hx]
        rcases htot a b with h1 | h1
        · exact absurd h1 h
        · exact h1
      · exact hb x hx

theorem pairwise_sortLe {le : α → α → Bool}
    (htot : ∀ a b, le a b = true ∨ le b a = true)
    (htrans : ∀ a b c, le a b = true → le b c = true → le a c = true)
    (l : List α) : (sortLe le l).Pairwise (fun x y => le x y = true) := by
  induction l with
  | nil => simp [sortLe]
  | cons a r ih => exact pairwise_insertLe htot htrans ih

theorem mem_withIdx {l : List α} :
    ∀ {i : Nat} {k : Nat} {v : α},
      ((k, v) ∈ withIdx l i ↔ ∃ j, k = i + j ∧ l.get? j = some v) := by
  induction l with
  | nil => simp [withIdx]
  | cons a r ih =>
    intro i k v
    rw [withIdx, List.mem_cons]
    constructor
    · intro h
      rcases h with h | h
      · rw [Prod.mk.injEq] at h
        exact ⟨0, by simp [h.1], by simp [h.2]⟩
      · rcases ih.mp h with ⟨j, hj1, hj2⟩
        exact ⟨j + 1, by omega, by simpa using hj2⟩
    · rintro ⟨j, hj1, hj2⟩
      cases j with
      | zero =>
        left
        simp only [List.get?_cons_zero, Option.some.injEq] at hj2
        rw [Prod.mk.injEq]
        exact ⟨by omega, hj2.symm⟩
      | succ j =>
        right
        exact ih.mpr ⟨j, by omega, by simpa using hj2⟩

theorem mem_withIdx_zero {l : List α} {k : Nat} {v : α} :
    (k, v) ∈ withIdx l 0 ↔ l.get? k = some v := by
  rw [mem_withIdx]
  constructor
  · rintro ⟨j, hj1, hj2⟩
    rwa [show k = j by omega]
  · intro h
    exact ⟨k, by omega, h⟩

theorem mem_similarOrder [LinearOrder α] {row : List α} {k : Nat} {v : α} :
    (k, v) ∈ similarOrder row ↔ row.get? k = some v := by
  rw [similarOrder, List.mem_reverse, mem_sortLe, mem_withIdx_zero]

theorem pairwise_similarOrder [LinearOrder α] (row : List α) :
    (similarOrder row).Pairwise (fun p q => q.2 ≤ p.2) := by
  rw [similarOrder, List.pairwise_reverse]
  have h := @pairwise_sortLe (Nat × α) (fun p q => decide (p.2 ≤ q.2))
    (fun a b => by
      rcases le_total a.2 b.2 with h | h
      · exact Or.inl (by simpa using h)
      · exact Or.inr (by simpa using h))
    (fun a b c h1 h2 => by
      simp only [decide_eq_true_eq] at h1 h2 ⊢
      exact le_trans h1 h2)
    (withIdx row 0)
  refine List.Pairwise.imp ?_ h
  intro p q hpq
  simpa using hpq

theorem find?_ne_spec {β : Type} (t : Nat) (L : List (Nat × β)) [Preorder β]
    (hs : L.Pairwise (fun p q => q.2 ≤ p.2)) :
    (∀ p, L.find? (fun p => decide (p.1 ≠ t)) = some p →
      p.1 ≠ t ∧ p ∈ L ∧ ∀ q ∈ L, q.1 ≠ t → q.2 ≤ p.2) ∧
    (L.find? (fun p => decide (p.1 ≠ t)) = none → ∀ q ∈ L, q.1 = t) := by
  induction L with
  | nil => simp
  | cons a L' ih =>
    rcases List.pairwise_cons.mp hs with ⟨ha, hL'⟩
    by_cases hat : a.1 ≠ t
    · rw [List.find?_cons_of_pos _ (by simpa using hat)]
      constructor
      · intro p hp
        cases hp
        refine ⟨hat, List.mem_cons_self _ _, ?_⟩
        intro q hq _
        rcases List.mem_cons.mp hq with hq | hq
        · rw [hq]
        · exact ha q hq
      · intro h
        cases h
    · rw [List.find?_cons_of_neg _ (by simpa using hat)]
      push_neg at hat
      constructor
      · intro p hp
        rcases (ih hL').1 p hp with ⟨h1, h2, h3⟩
        refine ⟨h1, List.mem_cons_of_mem _ h2, ?_⟩
        intro q hq hqt
        rcases List.mem_cons.mp hq with hq | hq
        · exact absurd (hq ▸ hat) hqt
        · exact h3 q hq hqt
      · intro h q hq
        rcases List.mem_cons.mp hq with hq | hq
        · rw [hq, hat]
        · exact (ih hL').2 h q hq

/-! ## Real-valued pipeline lemmas -/

theorem colVar_nonneg {n d : ℕ} (M : Fin n → Fin d → ℝ) (j : Fin d) :
    0 ≤ colVar M j := by
  unfold colVar
  apply div_nonneg _ (Nat.cast_nonneg n)
  exact Finset.sum_nonneg fun i _ => sq_nonneg _

theorem colStd_eq_zero_iff {n d : ℕ} (M : Fin n → Fin d → ℝ) (j : Fin d) :
    colStd M j = 0 ↔ colVar M j = 0 := by
  unfold colStd
  rw [Real.sqrt_eq_zero (colVar_nonneg M j)]

theorem l2norm_nonneg {d : ℕ} (u : Fin d → ℝ) : 0 ≤ l2norm u :=
  Real.sqrt_nonneg _

theorem l2norm_eq_zero_iff {d : ℕ} (u : Fin d → ℝ) :
    l2norm u = 0 ↔ ∀ k, u k = 0 := by
  unfold l2norm
  rw [Real.sqrt_eq_zero (Finset.sum_nonneg fun k _ => sq_nonneg _)]
  rw [Finset.sum_eq_zero_iff_of_nonneg fun k _ => sq_nonneg (u k)]
  simp [pow_eq_zero_iff]

theorem dotProd_zero_left {d : ℕ} {u v : Fin d → ℝ} (h : ∀ k, u k = 0) :
    dotProd u v = 0 := by
  unfold dotProd
  exact Finset.sum_eq_zero fun k _ => by rw [h k, zero_mul]

theorem dotProd_zero_right {d : ℕ} {u v : Fin d → ℝ} (h : ∀ k, v k = 0) :
    dotProd u v = 0 := by
  unfold dotProd
  exact Finset.sum_eq_zero fun k _ => by rw [h k, mul_zero]

theorem abs_dotProd_le {d : ℕ} (u v : Fin d → ℝ) :
    |dotProd u v| ≤ l2norm u * l2norm v := by
  unfold dotProd l2norm
  rw [← Real.sqrt_mul (Finset.sum_nonneg fun k _ => sq_nonneg _)]
  rw [show |∑ k, u k * v k| = Real.sqrt ((∑ k, u k * v k) ^ 2) from
    (Real.sqrt_sq_eq_abs _).symm]
  exact Real.sqrt_le_sqrt (Finset.sum_mul_sq_le_sq_mul_sq _ _ _)

theorem abs_cosineSim_le_one {d : ℕ} (u v : Fin d → ℝ) :
    |cosineSim u v| ≤ 1 := by
  unfold cosineSim
  by_cases hu : l2norm u = 0
  · rw [dotProd_zero_left ((l2norm_eq_zero_iff u).mp hu)]
    simp
  · by_cases hv : l2norm v = 0
    · rw [dotProd_zero_right ((l2norm_eq_zero_iff v).mp hv)]
      simp
    · unfold normScale
      rw [if_neg hu, if_neg hv]
      have hupos : 0 < l2norm u := lt_of_le_of_ne (l2norm_nonneg u) (Ne.symm hu)
      have hvpos : 0 < l2norm v := lt_of_le_of_ne (l2norm_nonneg v) (Ne.symm hv)
      rw [abs_div, abs_of_pos (mul_pos hupos hvpos)]
      rw [div_le_one (mul_pos hupos hvpos)]
      exact abs_dotProd_le u v

theorem tempoDiff_nonneg {n : ℕ} (te ts : Fin n → ℝ) (i j : Fin n) :
    0 ≤ tempoDiff te ts i j := abs_nonneg _

theorem tempoMaxDiff_nonneg {n : ℕ} (te ts : Fin n → ℝ) :
    0 ≤ tempoMaxDiff te ts := by
  unfold tempoMaxDiff
  exact (Finset.le_fold_max _).mpr (Or.inl le_rfl)

theorem tempoDiff_le_max {n : ℕ} (te ts : Fin n → ℝ) (i j : Fin n) :
    tempoDiff te ts i j ≤ tempoMaxDiff te ts := by
  unfold tempoMaxDiff
  exact (Finset.le_fold_max _).mpr
    (Or.inr ⟨(i, j), Finset.mem_univ _, le_rfl⟩)

theorem eps_pos : (0 : ℝ) < 1e-8 := by norm_num

theorem tempoSim_nonneg {n : ℕ} (te ts : Fin n → ℝ) (i j : Fin n) :
    0 ≤ tempoSim te ts i j := by
  unfold tempoSim
  have hden : 0 < tempoMaxDiff te ts + 1e-8 :=
    add_pos_of_nonneg_of_pos (tempoMaxDiff_nonneg te ts) eps_pos
  have : tempoDiff te ts i j / (tempoMaxDiff te ts + 1e-8) ≤ 1 := by
    rw [div_le_one hden]
    have := tempoDiff_le_max te ts i j
    linarith [eps_pos]
  linarith

theorem tempoSim_le_one {n : ℕ} (te ts : Fin n → ℝ) (i j : Fin n) :
    tempoSim te ts i j ≤ 1 := by
  unfold tempoSim
  have hden : 0 < tempoMaxDiff te ts + 1e-8 :=
    add_pos_of_nonneg_of_pos (tempoMaxDiff_nonneg te ts) eps_pos
  have : 0 ≤ tempoDiff te ts i j / (tempoMaxDiff te ts + 1e-8) :=
    div_nonneg (tempoDiff_nonneg te ts i j) hden.le
  linarith

theorem tempoMaxDiff_eq_zero {n : ℕ} (te ts : Fin n → ℝ)
    (h : ∀ i j, te i = ts j) : tempoMaxDiff te ts = 0 := by
  refine le_antisymm ?_ (tempoMaxDiff_nonneg te ts)
  unfold tempoMaxDiff
  rw [Finset.fold_max_le]
  refine ⟨le_rfl, ?_⟩
  intro p _
  unfold tempoDiff
  rw [h p.1 p.2, sub_self, abs_zero]

/-! ## Sanity checks: concrete runs of the embedded functions -/

example : normalizeStr (("Song (Live) !!").toList) = ("song").toList := by decide
example : normalizeStr (("song live").toList) = ("song live").toList := by decide
example : normalizeStr (("(a]_b").toList) = ("_b").toList := by decide
example : normalizeStr (("  A  [mix) B.mp3 ").toList) = ("a bmp3").toList := by decide
example : resolve (("ab").toList) [("x").toList, ("ab").toList] = some 1 := by decide
example : resolve (("ab").toList) [("abc").toList] = some 0 := by decide
example : resolve (("zq").toList) [("hello world").toList] = none := by decide
example : resolve (("a b c d e f g h i j").toList) [("c q").toList] = none := by decide
example : recommendIndex [(3 : ℚ), 1] 0 = some 1 := by decide
example : recommendIndex [(3 : ℚ)] 0 = none := by decide
example :
    find_best_crossfade_from_match (("ab").toList) [("ab").toList, ("cd").toList]
      [[(1 : ℚ), 2], [3, 4]] = some (("cd").toList) := by decide
example :
    find_best_crossfade_from_match (("ab").toList) [("ab").toList]
      ([] : List (List ℚ)) = none := by decide

/-! ## Claim theorems -/

/-- C4 counterexample: the original claim's step description disagrees with
the code.  On `"(a]_b"` the code removes the mixed-kind span `(a]` and keeps
the underscore, giving `"_b"`, while the claimed steps (matching-kind closers,
alphanumeric-only) give `"ab"`.  On `"(a\nb)"` the claimed steps delete the
whole bracketed span, giving `""`, while the code's regex cannot cross the
newline and gives `"a b"`. -/
theorem c4_normalize_counterexample :
    normalize_song_name (.str (("(a]_b").toList)) ≠ claimNormalize (("(a]_b").toList) ∧
    normalize_song_name (.str (("(a\nb)").toList)) ≠ claimNormalize (("(a\nb)").toList) := by
  constructor <;> decide

/-- C4 (amended): `normalize_song_name` performs exactly these steps in
order: remove every substring from a `(` or `[` to the first following `)` or
`]` of either kind (never across a newline; an unclosed opener is kept);
remove all characters that are not alphanumeric, underscore, or whitespace;
lowercase; collapse whitespace runs to a single space; trim; and every
non-string input yields the empty string. -/
theorem c4_normalize_amended (v : PyVal) :
    normalize_song_name v = amendedNormalize v := by
  cases v with
  | other => rfl
  | str s =>
    show normalizeStr s = amendedNormalizeStr s
    unfold normalizeStr amendedNormalizeStr
    exact collapse_strip_comm _

/-- C8 counterexample: normalization is not insensitive to bracketed content,
so the spec's example fails: `normalize "Song (Live) !!"` is `"song"` but
`normalize "song live"` is `"song live"`. -/
theorem c8_normalize_counterexample :
    normalizeStr (("Song (Live) !!").toList) ≠ normalizeStr (("song live").toList) := by
  decide

/-- C8 (amended): normalization is idempotent, and it is case-insensitive in
the sense that lowercasing the input first never changes the result; in
particular `normalize "Song (Live) !!" = normalize "SONG (LIVE) !!" = "song"`,
which differs from `normalize "song live" = "song live"` because bracketed
content is removed. -/
theorem c8_normalize_idem_csfold :
    (∀ s : List Char, normalizeStr (normalizeStr s) = normalizeStr s) ∧
    (∀ s : List Char, normalizeStr (lowerStr s) = normalizeStr s) ∧
    normalizeStr (("Song (Live) !!").toList) = normalizeStr (("SONG (LIVE) !!").toList) ∧
    normalizeStr (("Song (Live) !!").toList) = ("song").toList := by
  refine ⟨normalizeStr_idem, normalizeStr_lowerStr, by decide, by decide⟩

/-- C2: every entry `(i, j)` of the combined similarity matrix weighs the
cosine similarity of track `i`'s standardized ending timbre vector against
track `j`'s standardized starting timbre vector by `0.4`, the corresponding
pitch-class cosine similarity by `0.2`, and the tempo-proximity score by
`0.4`, and the three weights sum to `1`. -/
theorem c2_similarity_combination {n dm dc : ℕ} (ds : Dataset n dm dc)
    (i j : Fin n) :
    similarityMatrix ds i j =
      0.4 * cosineSim (standardizeMat ds.mfccEnd i) (standardizeMat ds.mfccStart j)
        + 0.2 * cosineSim (standardizeMat ds.chromaEnd i) (standardizeMat ds.chromaStart j)
        + 0.4 * tempoSim ds.tempoEnd ds.tempoStart i j ∧
    MFCC_WEIGHT + CHROMA_WEIGHT + TEMPO_WEIGHT = 1 := by
  constructor
  · rfl
  · norm_num [MFCC_WEIGHT, CHROMA_WEIGHT, TEMPO_WEIGHT]

/-- C7: the cosine similarity used by the pipeline is the dot product divided
by the product of the L2 norms whenever both norms are nonzero; if either
norm is zero the similarity is `0` (never undefined); a vector of nonzero
norm has similarity `1` with itself; and orthogonal vectors (zero dot
product) have similarity `0`. -/
theorem c7_cosine_spec {d : ℕ} (u v : Fin d → ℝ) :
    (l2norm u ≠ 0 → l2norm v ≠ 0 →
      cosineSim u v = dotProd u v / (l2norm u * l2norm v)) ∧
    (l2norm u = 0 ∨ l2norm v = 0 → cosineSim u v = 0) ∧
    (l2norm u ≠ 0 → cosineSim u u = 1) ∧
    (dotProd u v = 0 → cosineSim u v = 0) := by
  refine ⟨?_, ?_, ?_, ?_⟩
  · intro hu hv
    unfold cosineSim normScale
    rw [if_neg hu, if_neg hv]
  · intro h
    unfold cosineSim
    rcases h with h | h
    · rw [dotProd_zero_left ((l2norm_eq_zero_iff u).mp h), zero_div]
    · rw [dotProd_zero_right ((l2norm_eq_zero_iff v).mp h), zero_div]
  · intro hu
    unfold cosineSim normScale
    rw [if_neg hu]
    have hS : dotProd u u = ∑ k, u k ^ 2 := by
      unfold dotProd
      exact Finset.sum_congr rfl fun k _ => (sq (u k)).symm ▸ (pow_two (u k)).symm
    have hnorm : l2norm u * l2norm u = dotProd u u := by
      rw [hS]
      unfold l2norm
      exact Real.mul_self_sqrt (Finset.sum_nonneg fun k _ => sq_nonneg _)
    have hne : dotProd u u ≠ 0 := by
      intro h0
      apply hu
      rw [← hnorm] at h0
      rcases mul_eq_zero.mp h0 with h1 | h1 <;> exact h1
    rw [hnorm]
    exact div_self hne
  · intro h
    unfold cosineSim
    rw [h, zero_div]

/-- C7 witness: concrete instance with every hypothesis discharged — the
all-ones vector in dimension 1 has nonzero norm and self-similarity `1`. -/
theorem c7_cosine_witness :
    l2norm (fun _ : Fin 1 => (1 : ℝ)) ≠ 0 ∧
    cosineSim (fun _ : Fin 1 => (1 : ℝ)) (fun _ : Fin 1 => (1 : ℝ)) = 1 := by
  have h1 : l2norm (fun _ : Fin 1 => (1 : ℝ)) = 1 := by
    unfold l2norm
    rw [Fin.sum_univ_one]
    norm_num
  have hne : l2norm (fun _ : Fin 1 => (1 : ℝ)) ≠ 0 := by
    rw [h1]
    norm_num
  exact ⟨hne, (c7_cosine_spec (fun _ : Fin 1 => (1 : ℝ)) (fun _ : Fin 1 => (1 : ℝ))).2.2.1 hne⟩

/-- C5: `StandardScaler.fit_transform` subtracts the column mean and divides
by the population standard deviation (guarded: a zero deviation divides by
`1` instead); columns with nonzero variance end up with mean `0`, variance
`1` and standard deviation `1`, and zero-variance columns map to all zeros. -/
theorem c5_standardize_spec {n d : ℕ} (M : Fin n → Fin d → ℝ) (hn : 0 < n)
    (j : Fin d) :
    (∀ i, standardizeMat M i j =
      (M i j - colMean M j) / (if colStd M j = 0 then 1 else colStd M j)) ∧
    (colVar M j ≠ 0 →
      colMean (standardizeMat M) j = 0 ∧ colVar (standardizeMat M) j = 1 ∧
        colStd (standardizeMat M) j = 1) ∧
    (colVar M j = 0 → ∀ i, standardizeMat M i j = 0) := by
  have hn' : (n : ℝ) ≠ 0 := Nat.cast_ne_zero.mpr hn.ne'
  refine ⟨fun i => rfl, ?_, ?_⟩
  · intro hvar
    have hstd : colStd M j ≠ 0 := fun h0 => hvar ((colStd_eq_zero_iff M j).mp h0)
    have hscale : colScale M j = colStd M j := if_neg hstd
    have hs2 : colStd M j * colStd M j = colVar M j := by
      unfold colStd
      exact Real.mul_self_sqrt (colVar_nonneg M j)
    have hsum0 : ∑ i, (M i j - colMean M j) = 0 := by
      rw [Finset.sum_sub_distrib, Finset.sum_const, Finset.card_univ,
        Fintype.card_fin]
      unfold colMean
      field_simp
    have hmean : colMean (standardizeMat M) j = 0 := by
      unfold colMean standardizeMat
      rw [hscale, ← Finset.sum_div, hsum0, zero_div, zero_div]
    have hvar1 : colVar (standardizeMat M) j = 1 := by
      unfold colVar
      rw [hmean]
      have hterm : ∀ i : Fin n, (standardizeMat M i j - 0) ^ 2 =
          (M i j - colMean M j) ^ 2 / (colStd M j * colStd M j) := by
        intro i
        unfold standardizeMat
        rw [hscale, sub_zero, div_pow, sq, sq]
      rw [Finset.sum_congr rfl fun i _ => hterm i, ← Finset.sum_div]
      rw [div_div, mul_comm (colStd M j * colStd M j) (n : ℝ), ← div_div]
      have hvarM : (∑ i, (M i j - colMean M j) ^ 2) / (n : ℝ) = colVar M j := rfl
      rw [hvarM, hs2, div_self hvar]
    refine ⟨hmean, hvar1, ?_⟩
    unfold colStd
    rw [hvar1]
    exact Real.sqrt_one
  · intro hvar i
    have hsum : ∑ i', (M i' j - colMean M j) ^ 2 = 0 := by
      unfold colVar at hvar
      rcases div_eq_zero_iff.mp hvar with h | h
      · exact h
      · exact absurd h hn'
    have hzero : (M i j - colMean M j) ^ 2 = 0 :=
      (Finset.sum_eq_zero_iff_of_nonneg fun i' _ => sq_nonneg _).mp hsum i
        (Finset.mem_univ i)
    have : M i j - colMean M j = 0 := by
      exact pow_eq_zero_iff (by norm_num) |>.mp hzero
    unfold standardizeMat
    rw [this, zero_div]

/-- C5 witness: on the concrete two-row column `(0, 2)` the variance is
nonzero and the standardized column has mean `0` and variance `1`; the
nonemptiness hypothesis is discharged at `n = 2`. -/
theorem c5_standardize_witness :
    colMean (standardizeMat (fun i : Fin 2 => fun _ : Fin 1 =>
      if i = 0 then (0 : ℝ) else 2)) 0 = 0 ∧
    colVar (standardizeMat (fun i : Fin 2 => fun _ : Fin 1 =>
      if i = 0 then (0 : ℝ) else 2)) 0 = 1 := by
  have hvar : colVar (fun i : Fin 2 => fun _ : Fin 1 =>
      if i = 0 then (0 : ℝ) else 2) 0 ≠ 0 := by
    unfold colVar colMean
    rw [Fin.sum_univ_two, Fin.sum_univ_two]
    norm_num
  have h := (c5_standardize_spec (fun i : Fin 2 => fun _ : Fin 1 =>
    if i = 0 then (0 : ℝ) else 2) (by norm_num) 0).2.1 hvar
  exact ⟨h.1, h.2.1⟩

/-- C6: the tempo-proximity entries follow the guarded formula
`1 - |tempo_end i - tempo_start j| / (max_pairwise_diff + 1e-8)`, always lie
in `[0, 1]`, equal `1` when every pairwise tempo difference vanishes (the
epsilon keeps the denominator positive), and every combined similarity entry
is a well-defined real of absolute value at most `1`. -/
theorem c6_tempo_guard {n dm dc : ℕ} (ds : Dataset n dm dc) (i j : Fin n) :
    tempoSim ds.tempoEnd ds.tempoStart i j =
      1 - |ds.tempoEnd i - ds.tempoStart j| /
        (tempoMaxDiff ds.tempoEnd ds.tempoStart + 1e-8) ∧
    (0 ≤ tempoSim ds.tempoEnd ds.tempoStart i j ∧
      tempoSim ds.tempoEnd ds.tempoStart i j ≤ 1) ∧
    ((∀ i' j', ds.tempoEnd i' = ds.tempoStart j') →
      tempoSim ds.tempoEnd ds.tempoStart i j = 1) ∧
    |similarityMatrix ds i j| ≤ 1 := by
  refine ⟨rfl, ⟨tempoSim_nonneg _ _ i j, tempoSim_le_one _ _ i j⟩, ?_, ?_⟩
  · intro h
    unfold tempoSim tempoDiff
    rw [tempoMaxDiff_eq_zero _ _ h, h i j, sub_self, abs_zero, zero_div,
      sub_zero]
  · have h1 := abs_cosineSim_le_one (standardizeMat ds.mfccEnd i)
      (standardizeMat ds.mfccStart j)
    have h2 := abs_cosineSim_le_one (standardizeMat ds.chromaEnd i)
      (standardizeMat ds.chromaStart j)
    have h3 : |tempoSim ds.tempoEnd ds.tempoStart i j| ≤ 1 :=
      abs_le.mpr ⟨by linarith [tempoSim_nonneg ds.tempoEnd ds.tempoStart i j],
        tempoSim_le_one _ _ i j⟩
    unfold similarityMatrix
    have t1 := abs_add
      (MFCC_WEIGHT * cosineSim (standardizeMat ds.mfccEnd i) (standardizeMat ds.mfccStart j)
        + CHROMA_WEIGHT * cosineSim (standardizeMat ds.chromaEnd i) (standardizeMat ds.chromaStart j))
      (TEMPO_WEIGHT * tempoSim ds.tempoEnd ds.tempoStart i j)
    have t2 := abs_add
      (MFCC_WEIGHT * cosineSim (standardizeMat ds.mfccEnd i) (standardizeMat ds.mfccStart j))
      (CHROMA_WEIGHT * cosineSim (standardizeMat ds.chromaEnd i) (standardizeMat ds.chromaStart j))
    have e1 : |MFCC_WEIGHT * cosineSim (standardizeMat ds.mfccEnd i) (standardizeMat ds.mfccStart j)|
        = 0.4 * |cosineSim (standardizeMat ds.mfccEnd i) (standardizeMat ds.mfccStart j)| := by
      rw [abs_mul]
      norm_num [MFCC_WEIGHT]
    have e2 : |CHROMA_WEIGHT * cosineSim (standardizeMat ds.chromaEnd i) (standardizeMat ds.chromaStart j)|
        = 0.2 * |cosineSim (standardizeMat ds.chromaEnd i) (standardizeMat ds.chromaStart j)| := by
      rw [abs_mul]
      norm_num [CHROMA_WEIGHT]
    have e3 : |TEMPO_WEIGHT * tempoSim ds.tempoEnd ds.tempoStart i j|
        = 0.4 * |tempoSim ds.tempoEnd ds.tempoStart i j| := by
      rw [abs_mul]
      norm_num [TEMPO_WEIGHT]
    rw [e1, e2] at t2
    rw [e3] at t1
    linarith

/-- C6 witness: in the degenerate dataset where every tempo equals every
other tempo (all zero), the all-equal hypothesis holds and each
tempo-proximity entry is exactly `1`. -/
theorem c6_tempo_witness :
    tempoSim (fun _ : Fin 1 => (0 : ℝ)) (fun _ : Fin 1 => (0 : ℝ)) 0 0 = 1 := by
  have h := (c6_tempo_guard
    (⟨fun _ _ => 0, fun _ _ => 0, fun _ _ => 0, fun _ _ => 0,
      fun _ => 0, fun _ => 0⟩ : Dataset 1 1 1) 0 0).2.2.1
  exact h (fun _ _ => rfl)

/-- C10: `find_best_crossfade_from_match` wraps its whole body in
`try ... except Exception: return None`, so an error raised anywhere inside
the body is swallowed and the caller sees `None`, while a normal result
passes through unchanged; the function itself is total. -/
theorem c10_no_raise {α : Type} [LinearOrder α] (target : List Char)
    (df : List (List Char)) (sim : List (List α)) :
    (∀ e, findBestBody target df sim = .error e →
      find_best_crossfade_from_match target df sim = none) ∧
    (∀ r, findBestBody target df sim = .ok r →
      find_best_crossfade_from_match target df sim = r) := by
  constructor
  · intro e he
    unfold find_best_crossfade_from_match
    rw [he]
  · intro r hr
    unfold find_best_crossfade_from_match
    rw [hr]

/-- C10 witness: a concrete run in which the body raises (the name matches
row 0 but the similarity matrix is empty, so `similarity_matrix[0, :]` is an
`IndexError`) and the function returns `None`. -/
theorem c10_no_raise_witness :
    findBestBody (α := ℚ) (("ab").toList) [("ab").toList] [] = .error () ∧
    find_best_crossfade_from_match (α := ℚ) (("ab").toList) [("ab").toList] [] = none := by
  refine ⟨by rfl, ?_⟩
  exact (c10_no_raise (("ab").toList) [("ab").toList] ([] : List (List ℚ))).1 () (by rfl)

/-- C9 (amended): whenever the normalized query shares no word token with any
candidate's normalized name **and** is in no substring relation with it
(neither contains the other), every candidate scores `0`, which is below the
`0.3` threshold, so resolution returns NOT_FOUND. -/
theorem c9_no_token_overlap (q : List Char) (cs : List (List Char))
    (h : ∀ c ∈ cs,
      isSubOf (normalizeStr q) (normalizeStr c) = false ∧
      isSubOf (normalizeStr c) (normalizeStr q) = false ∧
      ∀ w ∈ wordsOf (normalizeStr q), w ∉ wordsOf (normalizeStr c)) :
    resolve q cs = none := by
  have hscore : ∀ c ∈ cs, matchScore q c = 0 := by
    intro c hc
    obtain ⟨h1, h2, h3⟩ := h c hc
    simp only [matchScore, h1, h2, Bool.or_false, if_neg (Bool.false_ne_true)]
    have hfil : (wordsOf (normalizeStr q)).dedup.filter
        (fun w => decide (w ∈ wordsOf (normalizeStr c))) = [] := by
      rw [List.filter_eq_nil_iff]
      intro w hw
      simp only [decide_eq_true_eq]
      exact h3 w (List.mem_dedup.mp hw)
    rw [hfil]
    simp [Rat.mkRat_eq_divInt]
  have hall : ∀ s ∈ cs.map (matchScore q), s ≤ 0 := by
    intro s hs
    rcases List.mem_map.mp hs with ⟨c, hc, rfl⟩
    rw [hscore c hc]
  unfold resolve
  dsimp only
  rw [loopAux_of_le _ _ _ _ hall]
  simp

/-- C9 witness: the query `"xy"` shares nothing with the candidate `"ab"`
(no token, no substring relation), and resolution indeed returns `None`. -/
theorem c9_no_token_overlap_witness :
    resolve (("xy").toList) [("ab").toList] = none :=
  c9_no_token_overlap _ _ (by decide)

/-- C9 counterexample: the original claim fails because the substring rule
fires without any shared token: the normalized query `"ab"` shares no
whitespace-delimited token with the candidate `"abc"`, yet `"ab"` is a
substring of `"abc"`, the score is `1.0`, and resolution returns index `0`
instead of NOT_FOUND. -/
theorem c9_counterexample :
    (∀ w ∈ wordsOf (normalizeStr (("ab").toList)),
      w ∉ wordsOf (normalizeStr (("abc").toList))) ∧
    resolve (("ab").toList) [("abc").toList] = some 0 := by
  constructor
  · decide
  · decide

/-- C3: for a square similarity matrix and a valid target row, the selection
of lines 80-92 (argsort the target's row descending, take the first index
that is not the target) never returns the target's own index, only returns
indices whose similarity is maximal among the non-target columns, returns
NONE when the matrix has at most one row, and returns an index whenever at
least two rows exist.  (The tie order of `argsort` is unspecified, so no
particular tie-break is claimed.) -/
theorem c3_selector_spec {α : Type} [LinearOrder α] (m : List (List α))
    (t : Nat) (ht : t < m.length) (hsq : ∀ r ∈ m, r.length = m.length) :
    (∀ j, recommendIndex (m.get ⟨t, ht⟩) t = some j →
      j ≠ t ∧ j < m.length ∧
      ∀ k vk vj, k < m.length → k ≠ t →
        (m.get ⟨t, ht⟩).get? k = some vk →
        (m.get ⟨t, ht⟩).get? j = some vj → vk ≤ vj) ∧
    (m.length ≤ 1 → recommendIndex (m.get ⟨t, ht⟩) t = none) ∧
    (2 ≤ m.length → ∃ j, recommendIndex (m.get ⟨t, ht⟩) t = some j) := by
  set row := m.get ⟨t, ht⟩ with hrowdef
  have hrl : row.length = m.length := hsq row (List.get_mem m t ht)
  have hspec := find?_ne_spec t (similarOrder row) (pairwise_similarOrder row)
  refine ⟨?_, ?_, ?_⟩
  · intro j hj
    unfold recommendIndex at hj
    rcases Option.map_eq_some'.mp hj with ⟨p, hp, hpj⟩
    obtain ⟨hne, hmem, hmax⟩ := hspec.1 p hp
    have hget : row.get? p.1 = some p.2 := mem_similarOrder.mp hmem
    have hlt : p.1 < row.length := by
      rcases List.get?_eq_some.mp hget with ⟨hl, _⟩
      exact hl
    refine ⟨by rw [← hpj]; exact hne, by rw [← hpj, ← hrl]; exact hlt, ?_⟩
    intro k vk vj hk hkt hgetk hgetj
    have hkmem : (k, vk) ∈ similarOrder row := mem_similarOrder.mpr hgetk
    have hle := hmax (k, vk) hkmem hkt
    have hvj : vj = p.2 := by
      rw [← hpj, hget] at hgetj
      exact (Option.some_inj.mp hgetj).symm
    rw [hvj]
    exact hle
  · intro hle
    have hm1 : m.length = 1 := by omega
    unfold recommendIndex
    have hnone : (similarOrder row).find? (fun p => decide (p.1 ≠ t)) = none := by
      rw [List.find?_eq_none]
      intro p hp
      have hget : row.get? p.1 = some p.2 := mem_similarOrder.mp hp
      have hlt : p.1 < row.length := by
        rcases List.get?_eq_some.mp hget with ⟨hl, _⟩
        exact hl
      rw [hrl, hm1] at hlt
      simp only [decide_eq_true_eq, not_not]
      omega
    rw [hnone]
    rfl
  · intro h2
    have hrl2 : 2 ≤ row.length := by omega
    have hkprop : ∃ k, k ≠ t ∧ k < row.length := by
      by_cases h : t = 0
      · exact ⟨1, by omega, by omega⟩
      · exact ⟨0, by omega, by omega⟩
    obtain ⟨k, hkt, hklt⟩ := hkprop
    have hv : row.get? k = some (row.get ⟨k, hklt⟩) := List.get?_eq_get hklt
    have hmem : (k, row.get ⟨k, hklt⟩) ∈ similarOrder row :=
      mem_similarOrder.mpr hv
    have hsome : ((similarOrder row).find? (fun p => decide (p.1 ≠ t))).isSome :=
      List.find?_isSome.mpr ⟨(k, row.get ⟨k, hklt⟩), hmem, by simp [hkt]⟩
    unfold recommendIndex
    rcases Option.isSome_iff_exists.mp hsome with ⟨p, hp⟩
    exact ⟨p.1, by rw [hp]; rfl⟩

/-- C3 witness: a concrete 2x2 rational matrix with target row 0; both
hypotheses (valid target, square matrix) hold, and the selector returns an
index. -/
theorem c3_selector_witness :
    (2 : Nat) ≤ ([[(3 : ℚ), 1], [2, 5]] : List (List ℚ)).length ∧
    ∃ j, recommendIndex (([[(3 : ℚ), 1], [2, 5]] : List (List ℚ)).get
      ⟨0, by norm_num⟩) 0 = some j := by
  refine ⟨by norm_num, ?_⟩
  exact (c3_selector_spec [[(3 : ℚ), 1], [2, 5]] 0 (by norm_num)
    (by decide)).2.2 (by norm_num)

/-- C1: the Name Resolver scores every candidate as `1.0` when the
normalized query and candidate are in a substring relation (either way) and
otherwise as the number of shared distinct word tokens divided by
`max(|query word set|, 1)`; it tracks the strictly highest score (the first,
i.e. lowest, index wins ties), returns that index, and returns NOT_FOUND
exactly when there is no candidate or the best score is below `0.3`. -/
theorem c1_resolver_spec (q : List Char) (cs : List (List Char)) :
    (∀ c, matchScore q c =
      if (isSubOf (normalizeStr q) (normalizeStr c) ||
          isSubOf (normalizeStr c) (normalizeStr q)) = true then 1
      else (((wordsOf (normalizeStr q)).dedup.filter
          (fun w => decide (w ∈ wordsOf (normalizeStr c)))).length : ℚ) /
        max (((wordsOf (normalizeStr q)).dedup.length : ℚ)) 1) ∧
    (∀ j (hj : j < cs.length), matchScore q (cs.get ⟨j, hj⟩) ≤ bestScore q cs) ∧
    (cs ≠ [] → ∃ j, ∃ hj : j < cs.length,
      matchScore q (cs.get ⟨j, hj⟩) = bestScore q cs) ∧
    (resolve q cs = none ↔ cs = [] ∨ bestScore q cs < 3 / 10) ∧
    (∀ i, resolve q cs = some i →
      ∃ hi : i < cs.length,
        matchScore q (cs.get ⟨i, hi⟩) = bestScore q cs ∧
        ∀ j (hj : j < cs.length), j < i →
          matchScore q (cs.get ⟨j, hj⟩) < bestScore q cs) := by
  have hfold : (cs.map (matchScore q)).foldl max 0 = bestScore q cs := rfl
  have hB : ∀ j (hj : j < cs.length),
      matchScore q (cs.get ⟨j, hj⟩) ≤ bestScore q cs := by
    intro j hj
    have hmem : matchScore q (cs.get ⟨j, hj⟩) ∈ cs.map (matchScore q) :=
      List.mem_map.mpr ⟨cs.get ⟨j, hj⟩, List.get_mem cs j hj, rfl⟩
    rw [← hfold]
    exact le_foldl_max_of_mem hmem 0
  have hres : resolve q cs =
      if (loopAux (cs.map (matchScore q)) 0 (-1) 0).1 = -1 ∨
          (loopAux (cs.map (matchScore q)) 0 (-1) 0).2 < mkRat 3 10 then none
      else some (loopAux (cs.map (matchScore q)) 0 (-1) 0).1.toNat := rfl
  have hsnd : (loopAux (cs.map (matchScore q)) 0 (-1) 0).2 = bestScore q cs := by
    rw [loopAux_snd, hfold]
  refine ⟨?_, hB, ?_, ?_, ?_⟩
  · intro c
    simp only [matchScore]
    by_cases hcond : (isSubOf (normalizeStr q) (normalizeStr c) ||
        isSubOf (normalizeStr c) (normalizeStr q)) = true
    · rw [if_pos hcond, if_pos hcond]
    · rw [if_neg hcond, if_neg hcond]
      rw [Rat.mkRat_eq_divInt, Rat.divInt_eq_div]
      push_cast
      rfl
  · intro hne
    rcases foldl_max_mem (cs.map (matchScore q)) 0 with h0 | hmem
    · rw [hfold] at h0
      have hlen : 0 < cs.length := List.length_pos.mpr hne
      refine ⟨0, hlen, ?_⟩
      have h1 := hB 0 hlen
      have h2 := matchScore_nonneg q (cs.get ⟨0, hlen⟩)
      rw [h0] at h1 ⊢
      linarith
    · rcases List.mem_iff_get.mp hmem with ⟨n, hn⟩
      have hn2 : n.1 < cs.length := by
        have := n.2
        simpa using this
      refine ⟨n.1, hn2, ?_⟩
      rw [List.get_map] at hn
      rw [← hfold, ← hn]
  · rw [hres]
    constructor
    · intro h
      split_ifs at h with hcond
      · rcases hcond with hcond | hcond
        · by_cases hcs : cs = []
          · exact Or.inl hcs
          · right
            by_contra hge
            push_neg at hge
            have hpos : (0 : ℚ) < bestScore q cs :=
              lt_of_lt_of_le (by norm_num) hge
            have hfst := loopAux_fst_of_lt (cs.map (matchScore q)) 0 (-1) 0
              (by rw [hfold]; exact hpos)
            rw [hfst] at hcond
            omega
        · right
          rw [hsnd, threeTenths] at hcond
          exact hcond
    · intro h
      rcases h with h | h
      · subst h
        simp [loopAux]
      · rw [if_pos (Or.inr (by rw [hsnd, threeTenths]; exact h))]
  · intro i hi
    rw [hres] at hi
    split_ifs at hi with hcond
    · push_neg at hcond
      obtain ⟨hfstne, hge⟩ := hcond
      rw [hsnd, threeTenths] at hge
      have hpos : (0 : ℚ) < bestScore q cs :=
        lt_of_lt_of_le (by norm_num) hge
      have hfst := loopAux_fst_of_lt (cs.map (matchScore q)) 0 (-1) 0
        (by rw [hfold]; exact hpos)
      have hMmem : bestScore q cs ∈ cs.map (matchScore q) := by
        rcases foldl_max_mem (cs.map (matchScore q)) 0 with h0 | hmem
        · rw [hfold] at h0
          rw [h0] at hpos
          exact absurd hpos (lt_irrefl 0)
        · rw [hfold] at hmem
          exact hmem
      have hex : ∃ x ∈ cs.map (matchScore q),
          (fun s => decide (s = (cs.map (matchScore q)).foldl max 0)) x = true :=
        ⟨bestScore q cs, hMmem, by rw [hfold]; simp⟩
      have hidx := List.findIdx_lt_length_of_exists hex
      have hival : i = (cs.map (matchScore q)).findIdx
          (fun s => decide (s = (cs.map (matchScore q)).foldl max 0)) := by
        have hi' : (loopAux (cs.map (matchScore q)) 0 (-1) 0).1.toNat = i :=
          Option.some_inj.mp hi
        rw [hfst] at hi'
        omega
      have hilen : i < cs.length := by
        rw [hival]
        simpa using hidx
      refine ⟨hilen, ?_, ?_⟩
      · have hgot := List.findIdx_get (w := hidx)
        simp only [decide_eq_true_eq] at hgot
        have : (cs.map (matchScore q)).get ⟨i, by simpa using hilen⟩ =
            (cs.map (matchScore q)).foldl max 0 := by
          rw [← hgot]
          congr 1
          rw [Fin.mk.injEq]
          exact hival
        rw [List.get_map] at this
        rw [hfold] at this
        exact this
      · intro j hj hji
        have hjlen : j < (cs.map (matchScore q)).length := by simpa using hj
        have hji2 : j < (cs.map (matchScore q)).findIdx
            (fun s => decide (s = (cs.map (matchScore q)).foldl max 0)) := by
          rw [hival] at hji
          exact hji
        have hnp := List.not_of_lt_findIdx hji2
        have hnpP : ¬((List.map (matchScore q) cs)[j] =
            List.foldl max 0 (List.map (matchScore q) cs)) := by
          simpa using hnp
        have hnp2 : ¬(matchScore q (cs.get ⟨j, hj⟩) = bestScore q cs) := by
          intro heq
          apply hnpP
          rw [List.getElem_map]
          show matchScore q (cs.get ⟨j, hj⟩) =
            List.foldl max 0 (List.map (matchScore q) cs)
          rw [hfold]
          exact heq
        exact lt_of_le_of_ne (hB j hj) hnp2

/-- C1 witness: on a concrete query sharing nothing with the single
candidate, the best score is `0 < 0.3` and the resolver returns NOT_FOUND,
via the characterization theorem. -/
theorem c1_resolver_witness :
    resolve (("zq").toList) [("hello world").toList] = none := by
  have hb : bestScore (("zq").toList) [("hello world").toList] = 0 := by decide
  exact (c1_resolver_spec (("zq").toList) [("hello world").toList]).2.2.2.1.mpr
    (Or.inr (by rw [hb]; norm_num))
